import Mathlib

/-!
# Verification of the StrainGE variant-calling engine

A shallow embedding, in Lean 4, of the core of `strainge/variant_caller.py`:
the allele bitmask model, per-scaffold pileup statistics
(`ScaffoldCallData`), the aggregate (`VariantCallData`), the reference
coordinate translation (`Reference`), and the read-acceptance filter chain
of `VariantCaller`.  Alleles are modelled as natural-number bitmasks
(`A = 1`, `C = 2`, `G = 4`, `T = 8`, `INS = 16`, `DEL = 32`, `N = 0`,
matching the `enum.IntFlag` values in the source).  `numpy` `uint32`
counters are naturals reduced modulo `2^32` at each increment.  Python
exceptions (`KeyError`, `IndexError`, `AttributeError`) are modelled with
`Except`; `numpy` float division producing `NaN` is modelled with
`Option`.  Python/numpy floats are modelled as exact rationals.
-/

namespace StrainGE

/-- Python exceptions that the embedded operations can raise. -/
inductive Err where
  | keyError : Err
  | indexError : Err
  | attributeError : Err
  deriving DecidableEq, Repr

/-! ## Allele model (`class Allele(IntFlag)`)

`Allele.N = 0`, and `auto()` assigns `A = 1`, `C = 2`, `G = 4`, `T = 8`,
`INS = 16`, `DEL = 32`.  A combined value is the bitwise or of members. -/

def alleleA : ℕ := 1
def alleleC : ℕ := 2
def alleleG : ℕ := 4
def alleleT : ℕ := 8
def alleleINS : ℕ := 16
def alleleDEL : ℕ := 32

/-- `Allele.rc`: reverse-complement; compares `self.value` against the four
single-base members in turn and returns `self` when none matches. -/
def alleleRC (v : ℕ) : ℕ :=
  if v = alleleA then alleleT
  else if v = alleleC then alleleG
  else if v = alleleG then alleleC
  else if v = alleleT then alleleA
  else v

/-- `Allele.from_str`: a single-character base name looked up among the
members of the enum; anything that is not a member maps to `Allele.N`.
(`N` itself is a member and maps to the value 0 as well.) -/
def allele_from_str (c : Char) : ℕ :=
  if c = 'A' then alleleA
  else if c = 'C' then alleleC
  else if c = 'G' then alleleG
  else if c = 'T' then alleleT
  else 0

/-- `ALLELE_INDEX`: position of each single-member allele in the
`ALLELE_MASKS` enumeration order `[A, C, G, T, INS, DEL]`; a `dict` lookup
that raises `KeyError` (here: `none`) for any other value. -/
def alleleIndex (v : ℕ) : Option ℕ :=
  if v = alleleA then some 0
  else if v = alleleC then some 1
  else if v = alleleG then some 2
  else if v = alleleT then some 3
  else if v = alleleINS then some 4
  else if v = alleleDEL then some 5
  else none

/-- `ALLELE_MASKS[i]`: the bit value of the allele with index `i`;
the six members carry the successive powers of two. -/
def alleleMask (i : ℕ) : ℕ := 2 ^ i

/-- C9: `alleleRC` swaps `A` with `T` and `C` with `G`, is an involution on
every `Allele` value (in particular on the four single-base values), and is
the identity on every value that is not one of the four single-base bits:
the empty mask, every multi-bit mask, `INS`, and `DEL`. -/
theorem alleleRC_involution_and_identity :
    alleleRC alleleA = alleleT ∧ alleleRC alleleT = alleleA ∧
    alleleRC alleleC = alleleG ∧ alleleRC alleleG = alleleC ∧
    ∀ v : Fin 64, (alleleRC (alleleRC v.val) = v.val ∧
      (v.val = alleleA ∨ v.val = alleleC ∨ v.val = alleleG ∨
        v.val = alleleT ∨ alleleRC v.val = v.val)) := by
  refine ⟨rfl, rfl, rfl, rfl, ?_⟩
  decide

/-! ## Per-scaffold statistics (`class ScaffoldCallData`) -/

/-- A maximal run of consecutive equal values in a boolean array, as
produced by the consecutive-group extraction used by gap finding:
`start` is the index of the first position, `len` the number of
positions, `val` the common value of `group.data`. -/
structure RunGroup where
  start : ℕ
  len : ℕ
  val : Bool
  deriving DecidableEq, Repr

/-- End (one past the last position) of a run group. -/
def RunGroup.stop (g : RunGroup) : ℕ := g.start + g.len

/-- Pileup statistics for one scaffold.  Arrays of length `length` are
functions from positions; `alleles` is indexed position → row
(0 = counts, 1 = base-quality sums) → allele index (0..5).  Fields that
are `None` in Python until computed (`strong`, `weak`, `coverage`,
`high_coverage`, `lowmq`) hold zero/false defaults here. -/
structure ScaffoldCallData where
  name : String
  length : ℕ
  read_count : ℕ
  refmask : ℕ → ℕ
  alleles : ℕ → ℕ → ℕ → ℕ
  bad : ℕ → ℕ
  lowmq_count : ℕ → ℕ
  lowmq : ℕ → Bool
  mq_sum : ℕ → ℕ
  strong : ℕ → ℕ
  weak : ℕ → ℕ
  coverage : ℕ → ℕ
  high_coverage : ℕ → Bool
  mean_coverage : ℚ
  median_coverage : ℚ
  coverage_cutoff : ℚ
  gaps : List RunGroup

/-- `ScaffoldCallData.__init__`: all statistics arrays start at zero. -/
def ScaffoldCallData.init (name : String) (length : ℕ) : ScaffoldCallData where
  name := name
  length := length
  read_count := 0
  refmask := fun _ => 0
  alleles := fun _ _ _ => 0
  bad := fun _ => 0
  lowmq_count := fun _ => 0
  lowmq := fun _ => false
  mq_sum := fun _ => 0
  strong := fun _ => 0
  weak := fun _ => 0
  coverage := fun _ => 0
  high_coverage := fun _ => false
  mean_coverage := 0
  median_coverage := 0
  coverage_cutoff := 0
  gaps := []

/-- `self.alleles[:, 1]` at one position: per-allele base-quality sums. -/
def ScaffoldCallData.quals (s : ScaffoldCallData) (i a : ℕ) : ℕ :=
  s.alleles i 1 a

/-- `quals.sum(axis=-1)` at one position: total base-quality evidence. -/
def ScaffoldCallData.qual_sums (s : ScaffoldCallData) (i : ℕ) : ℕ :=
  ∑ a ∈ Finset.range 6, s.quals i a

/-- `numpy.divide(quals, qual_sums, where=qual_sums > 0)`: entries whose
denominator is zero are left uninitialized by numpy (no `out` argument);
the unspecified values are abstracted by the `junk` parameter. -/
def ScaffoldCallData.qual_fraction (junk : ℕ → ℕ → ℚ) (s : ScaffoldCallData)
    (i a : ℕ) : ℚ :=
  if 0 < s.qual_sums i then (s.quals i a : ℚ) / (s.qual_sums i : ℚ) else junk i a

/-- `(evidence * ALLELE_MASKS).sum(axis=-1)`: one bit per allele with any
positive quality evidence. -/
def ScaffoldCallData.weak_calls (s : ScaffoldCallData) (i : ℕ) : ℕ :=
  ∑ a ∈ Finset.range 6, if 0 < s.quals i a then alleleMask a else 0

/-- `(confirmed * ALLELE_MASKS).sum(axis=-1)` where
`confirmed = (quals > min_pileup_qual) & (qual_fraction > min_qual_frac)`. -/
def ScaffoldCallData.strong_calls (min_pileup_qual : ℕ) (min_qual_frac : ℚ)
    (junk : ℕ → ℕ → ℚ) (s : ScaffoldCallData) (i : ℕ) : ℕ :=
  ∑ a ∈ Finset.range 6,
    if min_pileup_qual < s.quals i a ∧
        min_qual_frac < s.qual_fraction junk i a then alleleMask a else 0

/-- `ScaffoldCallData.call_alleles`: compute `weak` and `strong` from the
quality evidence, then zero both wherever `high_coverage` holds
(`self.weak[self.high_coverage] = 0`, same for `strong`). -/
def ScaffoldCallData.call_alleles (min_pileup_qual : ℕ) (min_qual_frac : ℚ)
    (junk : ℕ → ℕ → ℚ) (s : ScaffoldCallData) : ScaffoldCallData :=
  { s with
    weak := fun i => if s.high_coverage i then 0 else s.weak_calls i
    strong := fun i => if s.high_coverage i then 0 else
      ScaffoldCallData.strong_calls min_pileup_qual min_qual_frac junk s i }

/-- A sum of distinct allele bit masks over indices below `n` stays below
`2 ^ n`. -/
lemma sum_ite_alleleMask_lt (p : ℕ → Prop) [DecidablePred p] (n : ℕ) :
    (∑ a ∈ Finset.range n, if p a then alleleMask a else 0) < 2 ^ n := by
  simp only [alleleMask]
  induction n with
  | zero => simp
  | succ m ih =>
    rw [Finset.sum_range_succ]
    have hterm : (if p m then (2 : ℕ) ^ m else 0) ≤ 2 ^ m := by
      split <;> omega
    have hp := pow_succ 2 m
    omega

/-- A sum of distinct allele bit masks, restricted by a predicate, has bit
`j` set exactly when the predicate holds at `j` (for `j` below the range
bound). -/
lemma testBit_sum_alleleMask (p : ℕ → Prop) [DecidablePred p] (n j : ℕ)
    (hj : j < n) :
    (∑ a ∈ Finset.range n, if p a then alleleMask a else 0).testBit j =
      decide (p j) := by
  have hbound : ∀ m : ℕ,
      (∑ a ∈ Finset.range m, if p a then (2 : ℕ) ^ a else 0) < 2 ^ m := by
    intro m
    have := sum_ite_alleleMask_lt p m
    simpa [alleleMask] using this
  simp only [alleleMask]
  induction n with
  | zero => omega
  | succ n ih =>
    rw [Finset.sum_range_succ]
    rcases Nat.lt_succ_iff_lt_or_eq.mp hj with hlt | heq
    · by_cases hpn : p n
      · rw [if_pos hpn, Nat.add_comm]
        rw [Nat.testBit_two_pow_add_gt hlt]
        exact ih hlt
      · rw [if_neg hpn, Nat.add_zero]
        exact ih hlt
    · subst heq
      by_cases hpj : p j
      · rw [if_pos hpj, Nat.add_comm]
        rw [Nat.testBit_two_pow_add_eq,
          Nat.testBit_lt_two_pow (hbound j)]
        simp [hpj]
      · rw [if_neg hpj, Nat.add_zero,
          Nat.testBit_lt_two_pow (hbound j)]
        simp [hpj]

/-- Each per-allele quality sum is at most the position's total. -/
lemma quals_le_qual_sums (s : ScaffoldCallData) (i a : ℕ) (ha : a < 6) :
    s.quals i a ≤ s.qual_sums i :=
  Finset.single_le_sum (fun b _ => Nat.zero_le (s.quals i b))
    (Finset.mem_range.mpr ha)

/-- C1: with positive thresholds, at a position not marked high-coverage,
`strong` has the bit of allele `a` set exactly when that allele's quality
sum strictly exceeds `min_pileup_qual` and its fraction of the position's
total quality strictly exceeds `min_qual_frac`; in particular a quality
sum equal to `min_pileup_qual` is never called strong, and one unit above
(with fraction strictly above `min_qual_frac`) is called strong. -/
theorem call_alleles_strong_iff (s : ScaffoldCallData) (mpq : ℕ) (mqf : ℚ)
    (junk : ℕ → ℕ → ℚ) (i a : ℕ) (hmpq : 0 < mpq) (hmqf : 0 < mqf)
    (hhc : s.high_coverage i = false) (ha : a < 6) :
    ((((s.call_alleles mpq mqf junk).strong i).testBit a = true) ↔
      (mpq < s.alleles i 1 a ∧
        mqf < (s.alleles i 1 a : ℚ) / ((∑ b ∈ Finset.range 6, s.alleles i 1 b : ℕ) : ℚ))) ∧
    (s.alleles i 1 a = mpq →
      (((s.call_alleles mpq mqf junk).strong i).testBit a = false)) ∧
    (s.alleles i 1 a = mpq + 1 →
      mqf < (s.alleles i 1 a : ℚ) / ((∑ b ∈ Finset.range 6, s.alleles i 1 b : ℕ) : ℚ) →
      (((s.call_alleles mpq mqf junk).strong i).testBit a = true)) := by
  have hstrong : (s.call_alleles mpq mqf junk).strong i =
      ScaffoldCallData.strong_calls mpq mqf junk s i := by
    simp [ScaffoldCallData.call_alleles, hhc]
  have hiff : (((s.call_alleles mpq mqf junk).strong i).testBit a = true) ↔
      (mpq < s.alleles i 1 a ∧
        mqf < (s.alleles i 1 a : ℚ) /
          ((∑ b ∈ Finset.range 6, s.alleles i 1 b : ℕ) : ℚ)) := by
    rw [hstrong, ScaffoldCallData.strong_calls,
      testBit_sum_alleleMask _ 6 a ha, decide_eq_true_iff]
    constructor
    · rintro ⟨h1, h2⟩
      have hpos : 0 < s.qual_sums i :=
        lt_of_lt_of_le (Nat.lt_of_lt_of_le hmpq (le_of_lt h1))
          (quals_le_qual_sums s i a ha)
      rw [ScaffoldCallData.qual_fraction, if_pos hpos] at h2
      exact ⟨h1, h2⟩
    · rintro ⟨h1, h2⟩
      have hpos : 0 < s.qual_sums i :=
        lt_of_lt_of_le (Nat.lt_of_lt_of_le hmpq (le_of_lt h1))
          (quals_le_qual_sums s i a ha)
      refine ⟨h1, ?_⟩
      rw [ScaffoldCallData.qual_fraction, if_pos hpos]
      exact h2
  refine ⟨hiff, ?_, ?_⟩
  · intro heq
    have : ¬ (mpq < s.alleles i 1 a ∧
        mqf < (s.alleles i 1 a : ℚ) /
          ((∑ b ∈ Finset.range 6, s.alleles i 1 b : ℕ) : ℚ)) := by
      rintro ⟨h1, _⟩; omega
    rcases Bool.eq_false_or_eq_true
      (((s.call_alleles mpq mqf junk).strong i).testBit a) with hb | hb
    · exact absurd (hiff.mp hb) this
    · exact hb
  · intro heq hfrac
    exact hiff.mpr ⟨by omega, hfrac⟩

/-- Concrete scaffold used to instantiate hypotheses of the allele-calling
theorems: one position whose only evidence is quality 2 for allele `A`. -/
def sWitness : ScaffoldCallData :=
  { ScaffoldCallData.init "s" 1 with
    alleles := fun i r a => if i = 0 ∧ r = 1 ∧ a = 0 then 2 else 0 }

/-- Witness for C1: with `min_pileup_qual = 1`, `min_qual_frac = 1/2`, the
single-allele position of `sWitness` is called strong for allele `A`. -/
theorem call_alleles_strong_iff_witness :
    (((sWitness.call_alleles 1 (1/2) (fun _ _ => 0)).strong 0).testBit 0 = true) := by
  have h := call_alleles_strong_iff sWitness 1 (1/2) (fun _ _ => 0) 0 0
    (by decide) (by norm_num) rfl (by decide)
  refine h.1.mpr ⟨by decide, ?_⟩
  rw [show sWitness.alleles 0 1 0 = 2 from rfl,
    show (∑ b ∈ Finset.range 6, sWitness.alleles 0 1 b) = 2 by decide]
  norm_num

/-! ## Coverage analysis (`calculate_coverage`, `poisson_coverage_cutoff`) -/

/-- `numpy.median`: sort the values and take the middle element (odd
length) or the mean of the two middle elements (even length). -/
def medianList (l : List ℕ) : ℚ :=
  let sorted := l.insertionSort (· ≤ ·)
  if l.length % 2 = 1 then (sorted.getD (l.length / 2) 0 : ℚ)
  else ((sorted.getD (l.length / 2 - 1) 0 : ℚ) + (sorted.getD (l.length / 2) 0 : ℚ)) / 2

/-- The Poisson cumulative distribution function with rate `mu` at `x`:
`∑_{k ≤ x} exp(-mu) * mu^k / k!`.  All uses have `mu ≥ 1/2`, so the
`toNNReal` clamp never changes the rate. -/
noncomputable def poissonCDF (mu : ℚ) (x : ℕ) : ℝ :=
  ∑ k ∈ Finset.range (x + 1),
    ProbabilityTheory.poissonPMFReal (Real.toNNReal (mu : ℝ)) k

/-- Modelled from the spec: `scipy.stats.poisson.ppf` (scipy's source is
not part of this repository).  Per its documented contract and the spec,
it returns the smallest integer `x` whose Poisson cumulative distribution
reaches the requested probability `q`. -/
noncomputable def poisson_ppf (q : ℚ) (mu : ℚ) : ℕ :=
  sInf {x : ℕ | (q : ℝ) ≤ poissonCDF mu x}

/-- The default tail probability `cutoff=0.9999999` of
`poisson_coverage_cutoff`: one part in ten million. -/
def poissonTailCutoff : ℚ := 9999999 / 10000000

/-- For any target probability below 1, `poisson_ppf` really is the least
member of the set of integers whose Poisson CDF reaches the target. -/
lemma poisson_ppf_isLeast (q mu : ℚ) (hq : (q : ℝ) < 1) :
    IsLeast {x : ℕ | (q : ℝ) ≤ poissonCDF mu x} (poisson_ppf q mu) := by
  have hsum := ProbabilityTheory.poissonPMFRealSum (Real.toNNReal (mu : ℝ))
  have htend := hsum.tendsto_sum_nat
  have hev : ∀ᶠ n in Filter.atTop, (q : ℝ) ≤
      ∑ i ∈ Finset.range n,
        ProbabilityTheory.poissonPMFReal (Real.toNNReal (mu : ℝ)) i :=
    htend.eventually_const_le hq
  obtain ⟨n, hn⟩ := hev.exists
  have hmem : n ∈ {x : ℕ | (q : ℝ) ≤ poissonCDF mu x} := by
    have hmono : (∑ i ∈ Finset.range n,
        ProbabilityTheory.poissonPMFReal (Real.toNNReal (mu : ℝ)) i) ≤
        poissonCDF mu n := by
      unfold poissonCDF
      exact Finset.sum_le_sum_of_subset_of_nonneg
        (Finset.range_subset.mpr (Nat.le_succ n))
        (fun k _ _ => ProbabilityTheory.poissonPMFReal_nonneg)
    exact le_trans hn hmono
  exact ⟨Nat.sInf_mem ⟨n, hmem⟩, fun x hx => Nat.sInf_le hx⟩

/-- `poisson_coverage_cutoff(mean, cutoff=0.9999999)`: the Poisson
quantile for a mean below 50, otherwise the linear formula
`int(math.ceil(mean * 1.5 + 15.0))`.  The quantile function is a
parameter, standing for `scipy.stats.poisson.ppf`. -/
def poisson_coverage_cutoff (ppf : ℚ → ℚ → ℕ) (mean : ℚ) : ℚ :=
  if mean < 50 then (ppf poissonTailCutoff mean : ℚ)
  else ((⌈mean * (3 / 2) + 15⌉ : ℤ) : ℚ)

/-- `ScaffoldCallData.calculate_coverage`: per-position coverage is the
sum of good-read allele counts plus the low-mapping-quality count; the
cutoff comes from `poisson_coverage_cutoff(max(0.5, median_coverage))`;
`high_coverage` marks positions whose coverage strictly exceeds the
cutoff. -/
def ScaffoldCallData.calculate_coverage (ppf : ℚ → ℚ → ℕ)
    (s : ScaffoldCallData) : ScaffoldCallData :=
  let coverage : ℕ → ℕ := fun i =>
    (∑ a ∈ Finset.range 6, s.alleles i 0 a) + s.lowmq_count i
  let median : ℚ := medianList ((List.range s.length).map coverage)
  let cutoff : ℚ := poisson_coverage_cutoff ppf (max (1 / 2) median)
  { s with
    coverage := coverage
    mean_coverage := ((∑ i ∈ Finset.range s.length, coverage i : ℕ) : ℚ) / (s.length : ℚ)
    median_coverage := median
    coverage_cutoff := cutoff
    high_coverage := fun i => decide (cutoff < (coverage i : ℚ)) }

/-- C4: after `calculate_coverage`, coverage at each position is the
allele-count total plus the low-mapping-quality count, `high_coverage`
holds exactly where coverage strictly exceeds the cutoff, and the cutoff
is the smallest integer whose Poisson CDF at rate `max(0.5, median)`
reaches 0.9999999 when that rate is below 50, and `ceil(rate*1.5 + 15)`
otherwise; a scaffold with median coverage 100 gets cutoff 165. -/
theorem calculate_coverage_spec (s : ScaffoldCallData) :
    (∀ i, (s.calculate_coverage poisson_ppf).coverage i =
      (∑ a ∈ Finset.range 6, s.alleles i 0 a) + s.lowmq_count i) ∧
    (∀ i, (s.calculate_coverage poisson_ppf).high_coverage i =
      decide ((s.calculate_coverage poisson_ppf).coverage_cutoff <
        ((s.calculate_coverage poisson_ppf).coverage i : ℚ))) ∧
    (s.calculate_coverage poisson_ppf).coverage_cutoff =
      (if max (1 / 2) (s.calculate_coverage poisson_ppf).median_coverage < 50
       then ((poisson_ppf poissonTailCutoff
         (max (1 / 2) (s.calculate_coverage poisson_ppf).median_coverage) : ℕ) : ℚ)
       else ((⌈max (1 / 2) (s.calculate_coverage poisson_ppf).median_coverage * (3 / 2) + 15⌉ : ℤ) : ℚ)) ∧
    IsLeast {x : ℕ | (poissonTailCutoff : ℝ) ≤
        poissonCDF (max (1 / 2) (s.calculate_coverage poisson_ppf).median_coverage) x}
      (poisson_ppf poissonTailCutoff
        (max (1 / 2) (s.calculate_coverage poisson_ppf).median_coverage)) ∧
    ((s.calculate_coverage poisson_ppf).median_coverage = 100 →
      (s.calculate_coverage poisson_ppf).coverage_cutoff = 165) := by
  refine ⟨fun i => rfl, fun i => rfl, ?_, ?_, ?_⟩
  · rfl
  · apply poisson_ppf_isLeast
    rw [show poissonTailCutoff = 9999999 / 10000000 from rfl]
    norm_num
  · intro h100
    have hcut : (s.calculate_coverage poisson_ppf).coverage_cutoff =
        poisson_coverage_cutoff poisson_ppf
          (max (1 / 2) (s.calculate_coverage poisson_ppf).median_coverage) := rfl
    rw [hcut, h100, poisson_coverage_cutoff]
    rw [max_eq_right (by norm_num : (1 / 2 : ℚ) ≤ 100)]
    rw [if_neg (by norm_num)]
    norm_num

/-- Concrete scaffold of length 1 whose single position has coverage 100,
so that its median coverage is exactly 100. -/
def sMedian100 : ScaffoldCallData :=
  { ScaffoldCallData.init "m" 1 with lowmq_count := fun _ => 100 }

/-- Witness for C4: `sMedian100` has a position, its median coverage is
100, and its coverage cutoff evaluates to `ceil(100*1.5+15) = 165`. -/
theorem calculate_coverage_spec_witness :
    (sMedian100.calculate_coverage poisson_ppf).median_coverage = 100 ∧
    (sMedian100.calculate_coverage poisson_ppf).coverage_cutoff = 165 := by
  have hmed : (sMedian100.calculate_coverage poisson_ppf).median_coverage = 100 := by
    decide
  exact ⟨hmed, (calculate_coverage_spec sMedian100).2.2.2.2 hmed⟩

/-- C2: after `calculate_coverage` followed by `call_alleles` with a
positive `min_pileup_qual`, every bit set in `strong` is set in `weak`,
and a high-coverage position has both `strong` and `weak` equal to 0. -/
theorem strong_subset_weak_and_high_zero (ppf : ℚ → ℚ → ℕ)
    (s : ScaffoldCallData) (mpq : ℕ) (mqf : ℚ) (junk : ℕ → ℕ → ℚ)
    (hmpq : 0 < mpq) :
    (∀ i j, ((((s.calculate_coverage ppf).call_alleles mpq mqf junk).strong i).testBit j = true →
      (((s.calculate_coverage ppf).call_alleles mpq mqf junk).weak i).testBit j = true)) ∧
    (∀ i, ((s.calculate_coverage ppf).call_alleles mpq mqf junk).high_coverage i = true →
      ((s.calculate_coverage ppf).call_alleles mpq mqf junk).strong i = 0 ∧
      ((s.calculate_coverage ppf).call_alleles mpq mqf junk).weak i = 0) := by
  set s' := s.calculate_coverage ppf with hs'
  constructor
  · intro i j hbit
    by_cases hhc : s'.high_coverage i
    · exfalso
      have hz : (s'.call_alleles mpq mqf junk).strong i = 0 := by
        simp [ScaffoldCallData.call_alleles, hhc]
      rw [hz] at hbit
      simp at hbit
    · have hstrong : (s'.call_alleles mpq mqf junk).strong i =
          ScaffoldCallData.strong_calls mpq mqf junk s' i := by
        simp [ScaffoldCallData.call_alleles, hhc]
      have hweak : (s'.call_alleles mpq mqf junk).weak i =
          s'.weak_calls i := by
        simp [ScaffoldCallData.call_alleles, hhc]
      rw [hstrong] at hbit
      rw [hweak]
      by_cases hj : j < 6
      · rw [ScaffoldCallData.strong_calls,
          testBit_sum_alleleMask _ 6 j hj, decide_eq_true_iff] at hbit
        rw [ScaffoldCallData.weak_calls,
          testBit_sum_alleleMask _ 6 j hj, decide_eq_true_iff]
        omega
      · exfalso
        have hlt : ScaffoldCallData.strong_calls mpq mqf junk s' i < 2 ^ j := by
          calc ScaffoldCallData.strong_calls mpq mqf junk s' i < 2 ^ 6 :=
                sum_ite_alleleMask_lt _ 6
            _ ≤ 2 ^ j := Nat.pow_le_pow_right (by omega) (by omega)
        rw [Nat.testBit_lt_two_pow hlt] at hbit
        exact Bool.false_ne_true hbit
  · intro i hhc
    have hhc' : s'.high_coverage i = true := hhc
    constructor
    · simp [ScaffoldCallData.call_alleles, hhc']
    · simp [ScaffoldCallData.call_alleles, hhc']

/-- Witness for C2: with threshold 1 on the concrete scaffold `sWitness`,
position 0 carries the strong `A` bit, so the theorem yields the weak `A`
bit there. -/
theorem strong_subset_weak_and_high_zero_witness :
    (((sWitness.calculate_coverage (fun _ _ => 0)).call_alleles 1 (1/2)
      (fun _ _ => 0)).weak 0).testBit 0 = true := by
  apply (strong_subset_weak_and_high_zero (fun _ _ => 0) sWitness 1 (1/2)
    (fun _ _ => 0) (by decide)).1 0 0
  have hmed0 : (sWitness.calculate_coverage (fun _ _ => 0)).median_coverage = 0 := by
    decide
  have hcut : (sWitness.calculate_coverage (fun _ _ => 0)).coverage_cutoff = 0 := by
    have heq : (sWitness.calculate_coverage (fun _ _ => 0)).coverage_cutoff =
        poisson_coverage_cutoff (fun _ _ => 0)
          (max (1 / 2) (sWitness.calculate_coverage (fun _ _ => 0)).median_coverage) := rfl
    rw [heq, hmed0, max_eq_left (by norm_num : (0 : ℚ) ≤ 1 / 2),
      poisson_coverage_cutoff, if_pos (by norm_num : (1 / 2 : ℚ) < 50)]
    norm_num
  have hhc : (sWitness.calculate_coverage (fun _ _ => 0)).high_coverage 0 = false := by
    have heq : (sWitness.calculate_coverage (fun _ _ => 0)).high_coverage 0 =
        decide ((sWitness.calculate_coverage (fun _ _ => 0)).coverage_cutoff <
          ((sWitness.calculate_coverage (fun _ _ => 0)).coverage 0 : ℚ)) := rfl
    rw [heq, hcut,
      show (sWitness.calculate_coverage (fun _ _ => 0)).coverage 0 = 0 from by decide]
    simp
  have hstrongeq : ((sWitness.calculate_coverage (fun _ _ => 0)).call_alleles 1 (1/2)
      (fun _ _ => 0)).strong 0 =
      ScaffoldCallData.strong_calls 1 (1/2) (fun _ _ => 0)
        (sWitness.calculate_coverage (fun _ _ => 0)) 0 := by
    simp [ScaffoldCallData.call_alleles, hhc]
  rw [hstrongeq, ScaffoldCallData.strong_calls,
    testBit_sum_alleleMask _ 6 0 (by omega), decide_eq_true_iff]
  refine ⟨by decide, ?_⟩
  have hq : (sWitness.calculate_coverage (fun _ _ => 0)).quals 0 0 = 2 := by decide
  have hsum : (sWitness.calculate_coverage (fun _ _ => 0)).qual_sums 0 = 2 := by
    decide
  rw [ScaffoldCallData.qual_fraction, if_pos (by rw [hsum]; norm_num), hq, hsum]
  norm_num

/-! ## Read-only accessors of `ScaffoldCallData` -/

/-- `depth(loc)`: count of all good reads at a position. -/
def ScaffoldCallData.depth (s : ScaffoldCallData) (loc : ℕ) : ℕ :=
  ∑ a ∈ Finset.range 6, s.alleles loc 0 a

/-- `qual_total(loc)`: sum of all quality evidence at a position. -/
def ScaffoldCallData.qual_total (s : ScaffoldCallData) (loc : ℕ) : ℕ :=
  ∑ a ∈ Finset.range 6, s.alleles loc 1 a

/-- `total_depth(loc)`: all reads including rejected ones. -/
def ScaffoldCallData.total_depth (s : ScaffoldCallData) (loc : ℕ) : ℕ :=
  s.depth loc + s.lowmq_count loc

/-- `ref_qual(loc)`: quality evidence for the reference base; the
`ALLELE_INDEX` lookup raises `KeyError` (`none`) when `refmask[loc]` is
not a single-member allele value. -/
def ScaffoldCallData.ref_qual (s : ScaffoldCallData) (loc : ℕ) : Option ℕ :=
  (alleleIndex (s.refmask loc)).map (fun ix => s.alleles loc 1 ix)

/-- `ref_fraction(loc) = ref_qual(loc) / qual_total(loc)`: when the total
is zero, the numpy scalar division `0 / 0` produces `NaN` (with a runtime
warning), not the number 0; both the `KeyError` of the index lookup and
the `NaN` outcome are modelled as `none`. -/
def ScaffoldCallData.ref_fraction (s : ScaffoldCallData) (loc : ℕ) : Option ℚ :=
  match alleleIndex (s.refmask loc) with
  | none => none
  | some ix =>
    if s.qual_total loc = 0 then none
    else some ((s.alleles loc 1 ix : ℚ) / (s.qual_total loc : ℚ))

/-- `mean_mq(loc)`: `mq_sum[loc] / d if d else 0`. -/
def ScaffoldCallData.mean_mq (s : ScaffoldCallData) (loc : ℕ) : ℚ :=
  if s.depth loc ≠ 0 then (s.mq_sum loc : ℚ) / (s.depth loc : ℚ) else 0

/-- A scaffold with reference base `A` at its single position and no
evidence at all: its quality total is zero. -/
def sRefNoEvidence : ScaffoldCallData :=
  { ScaffoldCallData.init "r" 1 with refmask := fun _ => alleleA }

/-- Counterexample to C7 as stated: at a position whose quality total is
zero, `ref_fraction` does not return (the number) 0 — the division has no
numeric value (`NaN` in numpy, `none` here). -/
theorem ref_fraction_zero_total_not_zero :
    sRefNoEvidence.qual_total 0 = 0 ∧
    sRefNoEvidence.ref_fraction 0 = none ∧
    sRefNoEvidence.ref_fraction 0 ≠ some 0 := by
  refine ⟨by decide, by decide, by decide⟩

/-- C7 (amended): `ref_fraction` yields no numeric value (`NaN`) when the
quality total is zero, and `ref_qual/qual_total` otherwise; `mean_mq`
returns 0 when the depth is zero. -/
theorem ref_fraction_and_mean_mq_conventions (s : ScaffoldCallData) (loc : ℕ) :
    (s.qual_total loc = 0 → s.ref_fraction loc = none) ∧
    (∀ ix, alleleIndex (s.refmask loc) = some ix → s.qual_total loc ≠ 0 →
      s.ref_fraction loc = some ((s.alleles loc 1 ix : ℚ) / (s.qual_total loc : ℚ))) ∧
    (s.depth loc = 0 → s.mean_mq loc = 0) := by
  refine ⟨?_, ?_, ?_⟩
  · intro h0
    rw [ScaffoldCallData.ref_fraction]
    cases halle : alleleIndex (s.refmask loc) with
    | none => rfl
    | some ix => simp [h0]
  · intro ix hix hne
    rw [ScaffoldCallData.ref_fraction, hix]
    simp [hne]
  · intro h0
    rw [ScaffoldCallData.mean_mq, if_neg]
    simp [h0]

/-- Witness for C7 (amended): on `sRefNoEvidence` the zero quality total
makes `ref_fraction` return no numeric value. -/
theorem ref_fraction_and_mean_mq_conventions_witness :
    sRefNoEvidence.ref_fraction 0 = none :=
  (ref_fraction_and_mean_mq_conventions sRefNoEvidence 0).1 (by decide)

/-! ## The aggregate (`class VariantCallData`) and its update operations -/

/-- A `uint32` numpy array cell update wraps modulo `2^32`. -/
def addU32 (x y : ℕ) : ℕ := (x + y) % 2 ^ 32

/-- All data and statistics needed for variant calling, per scaffold.
The scaffold dictionary is a partial map; a lookup of a missing key is a
Python `KeyError`. -/
structure VariantCallData where
  min_gap_size : ℕ
  reference_length : ℕ
  scaffolds_data : String → Option ScaffoldCallData
  mean_coverage : ℚ
  median_coverage : ℚ
  uniquely_mapped_reads : ℕ

/-- Replace one scaffold's statistics in the aggregate. -/
def VariantCallData.setScaffold (cd : VariantCallData) (name : String)
    (sd : ScaffoldCallData) : VariantCallData :=
  { cd with scaffolds_data := fun n => if n = name then some sd else cd.scaffolds_data n }

/-- `VariantCallData.bad_read`: `self.scaffolds_data[scaffold].bad[pos] += 1`
with no bounds check — a position at or past the scaffold length raises a
numpy `IndexError`. -/
def VariantCallData.bad_read (cd : VariantCallData) (scaffold : String)
    (pos : ℕ) : Except Err VariantCallData :=
  match cd.scaffolds_data scaffold with
  | none => .error .keyError
  | some sd =>
    if pos < sd.length then
      .ok (cd.setScaffold scaffold
        { sd with bad := fun j => if j = pos then addU32 (sd.bad j) 1 else sd.bad j })
    else .error .indexError

/-- `VariantCallData.low_mapping_quality`: an out-of-bounds position is
logged as a warning and the update is dropped (`return` with no change);
otherwise `lowmq_count[pos] += 1`. -/
def VariantCallData.low_mapping_quality (cd : VariantCallData)
    (scaffold : String) (pos : ℕ) : Except Err VariantCallData :=
  match cd.scaffolds_data scaffold with
  | none => .error .keyError
  | some sd =>
    if sd.length ≤ pos then .ok cd
    else .ok (cd.setScaffold scaffold
      { sd with lowmq_count := fun j =>
          if j = pos then addU32 (sd.lowmq_count j) 1 else sd.lowmq_count j })

/-- `VariantCallData.good_read`: reverse-complement the allele when `rc`,
look its index up in `ALLELE_INDEX` (`KeyError` for non-single values),
then increment the count, quality-sum and mapping-quality-sum cells with
no bounds check (numpy `IndexError` past the scaffold length). -/
def VariantCallData.good_read (cd : VariantCallData) (scaffold : String)
    (pos allele base_quality mapping_quality : ℕ) (rc : Bool) :
    Except Err VariantCallData :=
  let base := if rc then alleleRC allele else allele
  match alleleIndex base with
  | none => .error .keyError
  | some ix =>
    match cd.scaffolds_data scaffold with
    | none => .error .keyError
    | some sd =>
      if pos < sd.length then
        .ok (cd.setScaffold scaffold
          { sd with
            alleles := fun p r a =>
              if p = pos ∧ r = 0 ∧ a = ix then addU32 (sd.alleles p r a) 1
              else if p = pos ∧ r = 1 ∧ a = ix then addU32 (sd.alleles p r a) base_quality
              else sd.alleles p r a
            mq_sum := fun j =>
              if j = pos then addU32 (sd.mq_sum j) mapping_quality else sd.mq_sum j })
      else .error .indexError

/-- `VariantCallData.inc_uniquely_mapped_reads`: bump the global unique
read counter and the scaffold's read count. -/
def VariantCallData.inc_uniquely_mapped_reads (cd : VariantCallData)
    (scaffold : String) : Except Err VariantCallData :=
  match cd.scaffolds_data scaffold with
  | none => .error .keyError
  | some sd =>
    .ok { cd.setScaffold scaffold { sd with read_count := sd.read_count + 1 } with
          uniquely_mapped_reads := cd.uniquely_mapped_reads + 1 }

/-- An aggregate with a single scaffold `"s"` of length 3 and empty
statistics. -/
def cdSmall : VariantCallData where
  min_gap_size := 10
  reference_length := 3
  scaffolds_data := fun n => if n = "s" then some (ScaffoldCallData.init "s" 3) else none
  mean_coverage := 0
  median_coverage := 0
  uniquely_mapped_reads := 0

/-- Counterexample to C3 as stated: at position 3 of the length-3
scaffold, the bad-read and good-read updates are not dropped with a
warning — they raise an `IndexError`. -/
theorem bad_and_good_read_out_of_bounds_error :
    cdSmall.bad_read "s" 3 = .error .indexError ∧
    cdSmall.good_read "s" 3 alleleA 30 40 false = .error .indexError := by
  constructor <;> rfl

/-- C3 (amended): an out-of-bounds position is dropped with a warning and
no state change only for the low-mapping-quality update; the bad-read and
good-read updates at such a position raise a numpy `IndexError` instead. -/
theorem out_of_bounds_update_behaviour (cd : VariantCallData)
    (scaffold : String) (pos : ℕ) (sd : ScaffoldCallData)
    (hsd : cd.scaffolds_data scaffold = some sd) (hpos : sd.length ≤ pos) :
    cd.low_mapping_quality scaffold pos = .ok cd ∧
    cd.bad_read scaffold pos = .error .indexError ∧
    (∀ allele base_quality mapping_quality rc,
      (alleleIndex (if rc then alleleRC allele else allele)).isSome →
      cd.good_read scaffold pos allele base_quality mapping_quality rc =
        .error .indexError) := by
  refine ⟨?_, ?_, ?_⟩
  · rw [VariantCallData.low_mapping_quality, hsd]
    simp [hpos]
  · rw [VariantCallData.bad_read, hsd]
    simp [Nat.not_lt.mpr hpos]
  · intro allele bq mq rc hix
    rw [VariantCallData.good_read]
    obtain ⟨ix, hix'⟩ := Option.isSome_iff_exists.mp hix
    rw [hix', hsd]
    simp [Nat.not_lt.mpr hpos]

/-- Witness for C3 (amended): on `cdSmall` at position 3, the
low-mapping-quality update is dropped without error and without change. -/
theorem out_of_bounds_update_behaviour_witness :
    cdSmall.low_mapping_quality "s" 3 = .ok cdSmall :=
  (out_of_bounds_update_behaviour cdSmall "s" 3 (ScaffoldCallData.init "s" 3)
    rfl (by decide)).1

/-! ## Reference model (`class Reference`) -/

/-- The ordered scaffold dictionary of a reference: insertion-ordered
pairs of scaffold id and length (the sequences themselves are not needed
by the coordinate operations). -/
structure Reference where
  scaffolds : List (String × ℕ)

/-- The loop of `Reference.scaffold_coord`, carrying the running offset. -/
def scaffoldCoordAux (offset : ℕ) (coord : ℕ) :
    List (String × ℕ) → Option (String × ℕ)
  | [] => none
  | (name, len) :: rest =>
    if coord < offset + len then some (name, coord + 1 - offset)
    else scaffoldCoordAux (offset + len) coord rest

/-- `Reference.scaffold_coord`: zero-based genome-wide coordinate to
(scaffold, 1-based coordinate); falls off the loop (`None`) when the
coordinate is past the end. -/
def Reference.scaffold_coord (r : Reference) (coord : ℕ) : Option (String × ℕ) :=
  scaffoldCoordAux 0 coord r.scaffolds

/-- `Reference.scaffold_to_genome_coord`: the source iterates
`zip(self.scaffolds, self.lengths)`, but iterating the `scaffolds` dict
yields its keys — plain strings — and the loop body immediately evaluates
`scaffold.name`, an attribute a `str` does not have.  With at least one
scaffold the first iteration raises `AttributeError`; with none, the loop
never runs and the function returns `None`. -/
def Reference.scaffold_to_genome_coord (r : Reference) (scaffold_name : String)
    (coord : ℕ) : Except Err (Option ℕ) :=
  match r.scaffolds with
  | [] => .ok none
  | _ :: _ => .error .attributeError

/-- C8 (code bug): the forward coordinate translation always raises
`AttributeError` on any non-empty reference, so the round-trip the spec
requires can never be performed; shown at a one-scaffold reference. -/
theorem scaffold_to_genome_coord_crashes :
    (Reference.mk [("s1", 5)]).scaffold_to_genome_coord "s1" 1 =
      .error .attributeError ∧
    (Reference.mk [("s1", 5)]).scaffold_coord 0 = some ("s1", 1) := by
  exact ⟨rfl, rfl⟩

/-! ## The variant caller (`class VariantCaller`) -/

/-- The externally supplied thresholds of `VariantCaller.__init__`. -/
structure CallerConfig where
  min_qual : ℕ
  min_pileup_qual : ℕ
  min_qual_frac : ℚ
  min_mapping_quality : ℕ
  min_gap_size : ℕ
  max_num_mismatches : ℕ

/-- The fields of a `pysam` alignment record that the caller consults.
`nm` is the `NM` tag when present (`has_tag('NM')`), `has_xa` whether an
`XA` alternative-hit tag is present. -/
structure Alignment where
  query_name : String
  mapping_quality : ℕ
  has_xa : Bool
  is_paired : Bool
  is_proper_pair : Bool
  query_alignment_length : ℕ
  query_length : ℕ
  template_length : ℤ
  nm : Option ℕ
  reference_name : String
  query_qualities : List ℕ
  query_sequence : List Char

/-- One entry of a pileup column: the aligned read plus its per-column
attributes. -/
structure PileupRead where
  alignment : Alignment
  query_position_or_next : ℕ
  is_del : Bool
  indel : ℤ

/-- Pass 1 (abundance estimation) acceptance: the `continue` chain of
`VariantCaller.process` — mapping quality at least 3 and no `XA` tag;
properly paired if paired; not clipped; absolute template length at least
the read length if paired; and, when the mismatch limit is positive, at
most that many mismatches. -/
def pass1_accept (cfg : CallerConfig) (a : Alignment) : Bool :=
  if a.mapping_quality < 3 ∨ a.has_xa = true then false
  else if a.is_paired ∧ a.is_proper_pair = false then false
  else if a.query_alignment_length ≠ a.query_length then false
  else if a.is_paired ∧ a.template_length.natAbs < a.query_length then false
  else if 0 < cfg.max_num_mismatches ∧ cfg.max_num_mismatches < a.nm.getD 0 then false
  else true

/-- The pass-1 loop: accepted alignments are counted through
`inc_uniquely_mapped_reads`, rejected ones are skipped. -/
def pass1_process (cfg : CallerConfig) (cd : VariantCallData) :
    List Alignment → Except Err VariantCallData
  | [] => .ok cd
  | a :: rest =>
    if pass1_accept cfg a then
      match cd.inc_uniquely_mapped_reads a.reference_name with
      | .error e => .error e
      | .ok cd' => pass1_process cfg cd' rest
    else pass1_process cfg cd rest

/-- C10: pass 1 applies the mismatch filter: when the configured maximum
is positive and an alignment's mismatch count exceeds it, the alignment
is rejected and contributes nothing to the read counts, regardless of the
other checks. -/
theorem pass1_mismatch_filter (cfg : CallerConfig) (a : Alignment)
    (rest : List Alignment) (cd : VariantCallData)
    (h1 : 0 < cfg.max_num_mismatches)
    (h2 : cfg.max_num_mismatches < a.nm.getD 0) :
    pass1_accept cfg a = false ∧
    pass1_process cfg cd (a :: rest) = pass1_process cfg cd rest := by
  have hacc : pass1_accept cfg a = false := by
    unfold pass1_accept
    split
    · rfl
    · split
      · rfl
      · split
        · rfl
        · split
          · rfl
          · rw [if_pos ⟨h1, h2⟩]
  refine ⟨hacc, ?_⟩
  rw [pass1_process, hacc]
  simp

/-- An alignment with 5 mismatches that passes every other pass-1 check. -/
def alnManyMismatches : Alignment where
  query_name := "r1"
  mapping_quality := 60
  has_xa := false
  is_paired := false
  is_proper_pair := false
  query_alignment_length := 100
  query_length := 100
  template_length := 0
  nm := some 5
  reference_name := "s"
  query_qualities := []
  query_sequence := []

/-- Configuration with a mismatch limit of 1 and base-quality minimum 20. -/
def cfgStrict : CallerConfig where
  min_qual := 20
  min_pileup_qual := 50
  min_qual_frac := 1 / 10
  min_mapping_quality := 5
  min_gap_size := 2000
  max_num_mismatches := 1

/-- Witness for C10: the 5-mismatch alignment is rejected by pass 1 under
a mismatch limit of 1. -/
theorem pass1_mismatch_filter_witness :
    pass1_accept cfgStrict alnManyMismatches = false :=
  (pass1_mismatch_filter cfgStrict alnManyMismatches [] cdSmall
    (by decide) (by decide)).1

/-- The mutable state of one `VariantCaller.process` invocation: the
memoized set of discarded read names plus the aggregate being filled. -/
structure CallerState where
  discarded_reads : List String
  call_data : VariantCallData

/-- `_assess_alternative_locations` inner loop: a low-mapping-quality
increment at every alternative location of the read. -/
def lowmqAlts (cd : VariantCallData) :
    List (String × ℕ × Bool) → Except Err VariantCallData
  | [] => .ok cd
  | (sc, p, _) :: rest =>
    match cd.low_mapping_quality sc p with
    | .error e => .error e
    | .ok cd' => lowmqAlts cd' rest

/-- The borderline-confident replication loop: a good-read update at
every alternative location, reverse-complementing on strand change. -/
def goodAlts (base bq mq : ℕ) (cd : VariantCallData) :
    List (String × ℕ × Bool) → Except Err VariantCallData
  | [] => .ok cd
  | (sc, p, rc) :: rest =>
    match cd.good_read sc p base bq mq rc with
    | .error e => .error e
    | .ok cd' => goodAlts base bq mq cd' rest

/-- `VariantCaller._assess_read`: the per-pileup-entry filter chain.
`altLocs` stands for `_alternative_locations(alignment, refpos)` (the
parsing of the `XA` tag); the chain itself never depends on its output
except to propagate low-mapping-quality or borderline good-read updates.
The allele check `if not base` is reached only in the `from_str` branch
of the source; `DEL` and `INS` are nonzero, so testing the merged value
against 0 is equivalent. -/
def assess_read (altLocs : Alignment → ℕ → List (String × ℕ × Bool))
    (cfg : CallerConfig) (st : CallerState) (scaffold : String) (refpos : ℕ)
    (read : PileupRead) : Except Err CallerState :=
  let a := read.alignment
  if a.query_name ∈ st.discarded_reads then
    (st.call_data.bad_read scaffold refpos).map
      (fun cd => ⟨st.discarded_reads, cd⟩)
  else if a.is_paired ∧ a.is_proper_pair = false then
    (st.call_data.bad_read scaffold refpos).map
      (fun cd => ⟨a.query_name :: st.discarded_reads, cd⟩)
  else if a.query_alignment_length ≠ a.query_length then
    (st.call_data.bad_read scaffold refpos).map
      (fun cd => ⟨a.query_name :: st.discarded_reads, cd⟩)
  else if a.is_paired ∧ a.template_length.natAbs < a.query_length then
    (st.call_data.bad_read scaffold refpos).map
      (fun cd => ⟨a.query_name :: st.discarded_reads, cd⟩)
  else if 0 < cfg.max_num_mismatches ∧ cfg.max_num_mismatches < a.nm.getD 0 then
    (st.call_data.bad_read scaffold refpos).map
      (fun cd => ⟨a.query_name :: st.discarded_reads, cd⟩)
  else
    match a.query_qualities.get? read.query_position_or_next with
    | none => .error .indexError
    | some qual =>
      if qual < cfg.min_qual then
        (st.call_data.bad_read scaffold refpos).map
          (fun cd => ⟨st.discarded_reads, cd⟩)
      else
        match (if read.is_del then Except.ok alleleDEL
               else if 0 < read.indel then Except.ok alleleINS
               else match a.query_sequence.get? read.query_position_or_next with
                 | none => Except.error Err.indexError
                 | some c => Except.ok (allele_from_str c)) with
        | .error e => .error e
        | .ok base =>
          if base = 0 then
            (st.call_data.bad_read scaffold refpos).map
              (fun cd => ⟨st.discarded_reads, cd⟩)
          else if a.mapping_quality < cfg.min_mapping_quality then
            match st.call_data.low_mapping_quality scaffold refpos with
            | .error e => .error e
            | .ok cd1 =>
              match lowmqAlts cd1 (altLocs a refpos) with
              | .error e => .error e
              | .ok cd2 => .ok ⟨st.discarded_reads, cd2⟩
          else
            match st.call_data.good_read scaffold refpos base qual
                a.mapping_quality false with
            | .error e => .error e
            | .ok cd1 =>
              if a.mapping_quality ≤ 3 then
                match goodAlts base qual a.mapping_quality cd1 (altLocs a refpos) with
                | .error e => .error e
                | .ok cd2 => .ok ⟨st.discarded_reads, cd2⟩
              else .ok ⟨st.discarded_reads, cd1⟩

/-- The pileup-processing loop: every entry of every column, in order,
through `_assess_read`. -/
structure PileupEntry where
  scaffold : String
  refpos : ℕ
  read : PileupRead

/-- Process a sequence of pileup entries in order. -/
def process_pileups (altLocs : Alignment → ℕ → List (String × ℕ × Bool))
    (cfg : CallerConfig) (st : CallerState) :
    List PileupEntry → Except Err CallerState
  | [] => .ok st
  | e :: rest =>
    match assess_read altLocs cfg st e.scaffold e.refpos e.read with
    | .error err => .error err
    | .ok st' => process_pileups altLocs cfg st' rest

/-- One `_assess_read` step never removes a name from the discarded set:
its result's set is either the input set or the input set with the
entry's read name added. -/
lemma assess_read_discarded_mono
    (altLocs : Alignment → ℕ → List (String × ℕ × Bool)) (cfg : CallerConfig)
    (st : CallerState) (scaffold : String) (refpos : ℕ) (read : PileupRead)
    (st' : CallerState)
    (h : assess_read altLocs cfg st scaffold refpos read = .ok st') :
    st'.discarded_reads = st.discarded_reads ∨
    st'.discarded_reads = read.alignment.query_name :: st.discarded_reads := by
  rw [assess_read] at h
  split at h
  · rcases hbr : st.call_data.bad_read scaffold refpos with e | cd <;>
      rw [hbr] at h <;> simp [Except.map] at h
    left; rw [← h]
  · split at h
    · rcases hbr : st.call_data.bad_read scaffold refpos with e | cd <;>
        rw [hbr] at h <;> simp [Except.map] at h
      right; rw [← h]
    · split at h
      · rcases hbr : st.call_data.bad_read scaffold refpos with e | cd <;>
          rw [hbr] at h <;> simp [Except.map] at h
        right; rw [← h]
      · split at h
        · rcases hbr : st.call_data.bad_read scaffold refpos with e | cd <;>
            rw [hbr] at h <;> simp [Except.map] at h
          right; rw [← h]
        · split at h
          · rcases hbr : st.call_data.bad_read scaffold refpos with e | cd <;>
              rw [hbr] at h <;> simp [Except.map] at h
            right; rw [← h]
          · split at h
            · exact absurd h (by simp)
            · split at h
              · rcases hbr : st.call_data.bad_read scaffold refpos with e | cd <;>
                  rw [hbr] at h <;> simp [Except.map] at h
                left; rw [← h]
              · split at h
                · exact absurd h (by simp)
                · split at h
                  · rcases hbr : st.call_data.bad_read scaffold refpos with e | cd <;>
                      rw [hbr] at h <;> simp [Except.map] at h
                    left; rw [← h]
                  · split at h
                    · split at h
                      · exact absurd h (by simp)
                      · split at h
                        · exact absurd h (by simp)
                        · left
                          cases h
                          rfl
                    · split at h
                      · exact absurd h (by simp)
                      · split at h
                        · split at h
                          · exact absurd h (by simp)
                          · left
                            cases h
                            rfl
                        · left
                          cases h
                          rfl

/-- Names in the discarded set persist through any run of the pileup
loop. -/
lemma process_pileups_discarded_mono
    (altLocs : Alignment → ℕ → List (String × ℕ × Bool)) (cfg : CallerConfig) :
    ∀ (l : List PileupEntry) (st st' : CallerState),
      process_pileups altLocs cfg st l = .ok st' →
      ∀ n, n ∈ st.discarded_reads → n ∈ st'.discarded_reads := by
  intro l
  induction l with
  | nil =>
    intro st st' h n hn
    rw [process_pileups] at h
    cases h
    exact hn
  | cons e rest ih =>
    intro st st' h n hn
    rw [process_pileups] at h
    rcases hstep : assess_read altLocs cfg st e.scaffold e.refpos e.read
      with err | st₁ <;> rw [hstep] at h
    · exact absurd h (by simp)
    · refine ih st₁ st' h n ?_
      rcases assess_read_discarded_mono altLocs cfg st e.scaffold e.refpos
        e.read st₁ hstep with heq | heq <;> rw [heq]
      · exact hn
      · exact List.mem_cons_of_mem _ hn

/-- C5: filter-chain memoization.  (i) An entry whose read name is
already discarded is recorded solely as a bad read at its position, with
the discarded set unchanged; (ii) the outcome for such an entry does not
depend on any other attribute of the read (the later filters are not
re-evaluated); (iii) a bad-read record changes no allele, quality,
mapping-quality, low-mapping-quality or read-count statistics; (iv) a
base-quality failure (all whole-read filters passed, base quality below
the minimum) is recorded as bad at that position only and never adds the
name to the discarded set; (v) once a name is in the discarded set it
stays there through any further run of the pileup loop. -/
theorem assess_read_memoization
    (altLocs : Alignment → ℕ → List (String × ℕ × Bool)) (cfg : CallerConfig) :
    (∀ (st : CallerState) (scaffold : String) (refpos : ℕ) (read : PileupRead),
      read.alignment.query_name ∈ st.discarded_reads →
      assess_read altLocs cfg st scaffold refpos read =
        (st.call_data.bad_read scaffold refpos).map
          (fun cd => ⟨st.discarded_reads, cd⟩)) ∧
    (∀ (st : CallerState) (scaffold : String) (refpos : ℕ)
        (read read' : PileupRead),
      read.alignment.query_name ∈ st.discarded_reads →
      read'.alignment.query_name = read.alignment.query_name →
      assess_read altLocs cfg st scaffold refpos read' =
        assess_read altLocs cfg st scaffold refpos read) ∧
    (∀ (cd : VariantCallData) (sc : String) (p : ℕ) (cd' : VariantCallData),
      cd.bad_read sc p = .ok cd' →
      ∀ n sd', cd'.scaffolds_data n = some sd' →
        ∃ sd, cd.scaffolds_data n = some sd ∧ sd'.alleles = sd.alleles ∧
          sd'.lowmq_count = sd.lowmq_count ∧ sd'.mq_sum = sd.mq_sum ∧
          sd'.read_count = sd.read_count) ∧
    (∀ (st : CallerState) (scaffold : String) (refpos : ℕ) (read : PileupRead)
        (qual : ℕ),
      read.alignment.query_name ∉ st.discarded_reads →
      ¬(read.alignment.is_paired ∧ read.alignment.is_proper_pair = false) →
      read.alignment.query_alignment_length = read.alignment.query_length →
      ¬(read.alignment.is_paired ∧
        read.alignment.template_length.natAbs < read.alignment.query_length) →
      ¬(0 < cfg.max_num_mismatches ∧
        cfg.max_num_mismatches < read.alignment.nm.getD 0) →
      read.alignment.query_qualities.get? read.query_position_or_next = some qual →
      qual < cfg.min_qual →
      assess_read altLocs cfg st scaffold refpos read =
        (st.call_data.bad_read scaffold refpos).map
          (fun cd => ⟨st.discarded_reads, cd⟩)) ∧
    (∀ (l : List PileupEntry) (st st' : CallerState),
      process_pileups altLocs cfg st l = .ok st' →
      ∀ n, n ∈ st.discarded_reads → n ∈ st'.discarded_reads) := by
  have hfirst : ∀ (st : CallerState) (scaffold : String) (refpos : ℕ)
      (read : PileupRead),
      read.alignment.query_name ∈ st.discarded_reads →
      assess_read altLocs cfg st scaffold refpos read =
        (st.call_data.bad_read scaffold refpos).map
          (fun cd => ⟨st.discarded_reads, cd⟩) := by
    intro st scaffold refpos read hmem
    rw [assess_read]
    split
    · rfl
    · rename_i hc
      exact absurd hmem hc
  refine ⟨hfirst, ?_, ?_, ?_, ?_⟩
  · intro st scaffold refpos read read' hmem hname
    rw [hfirst st scaffold refpos read hmem,
      hfirst st scaffold refpos read' (hname ▸ hmem)]
  · intro cd sc p cd' h n sd' hsd'
    rw [VariantCallData.bad_read] at h
    split at h
    all_goals first
    | exact absurd h (fun hc => Except.noConfusion hc)
    | (rename_i sd heq
       split at h
       all_goals first
       | exact absurd h (fun hc => Except.noConfusion hc)
       | (injection h with h
          subst h
          simp only [VariantCallData.setScaffold] at hsd'
          by_cases hn : n = sc
          · rw [if_pos hn] at hsd'
            cases hsd'
            exact ⟨sd, hn ▸ heq, rfl, rfl, rfl, rfl⟩
          · rw [if_neg hn] at hsd'
            exact ⟨sd', hsd', rfl, rfl, rfl, rfl⟩))
  · intro st scaffold refpos read qual hmem hpair hclip htlen hnm hq hqual
    rw [assess_read, if_neg hmem, if_neg hpair,
      if_neg (fun hne => hne hclip), if_neg htlen, if_neg hnm, hq]
    simp [hqual]
  · exact process_pileups_discarded_mono altLocs cfg

/-- A pileup read whose name is already discarded in the witness state. -/
def readDiscarded : PileupRead where
  alignment :=
    { query_name := "r1"
      mapping_quality := 60
      has_xa := false
      is_paired := false
      is_proper_pair := false
      query_alignment_length := 100
      query_length := 100
      template_length := 0
      nm := none
      reference_name := "s"
      query_qualities := []
      query_sequence := [] }
  query_position_or_next := 0
  is_del := false
  indel := 0

/-- A clean unpaired read whose base quality 5 at its pileup position is
below the configured minimum of 20. -/
def readLowBaseQual : PileupRead where
  alignment :=
    { query_name := "r2"
      mapping_quality := 60
      has_xa := false
      is_paired := false
      is_proper_pair := false
      query_alignment_length := 1
      query_length := 1
      template_length := 0
      nm := none
      reference_name := "s"
      query_qualities := [5]
      query_sequence := ['A'] }
  query_position_or_next := 0
  is_del := false
  indel := 0

/-- Caller state with `"r1"` already discarded, over `cdSmall`. -/
def stR1 : CallerState := ⟨["r1"], cdSmall⟩

/-- Witness for C5: on concrete inputs, the discarded read is recorded
as a bad read only; the low-base-quality read likewise without being
discarded; and a discarded name persists through the (empty) remainder of
the loop. -/
theorem assess_read_memoization_witness :
    (assess_read (fun _ _ => []) cfgStrict stR1 "s" 0 readDiscarded =
      (cdSmall.bad_read "s" 0).map (fun cd => ⟨["r1"], cd⟩)) ∧
    (assess_read (fun _ _ => []) cfgStrict stR1 "s" 1 readLowBaseQual =
      (cdSmall.bad_read "s" 1).map (fun cd => ⟨["r1"], cd⟩)) ∧
    "r1" ∈ stR1.discarded_reads := by
  obtain ⟨h1, _, _, h4, h5⟩ := assess_read_memoization (fun _ _ => []) cfgStrict
  refine ⟨h1 stR1 "s" 0 readDiscarded (by decide), ?_, ?_⟩
  · exact h4 stR1 "s" 1 readLowBaseQual 5 (by decide) (by decide) (by decide)
      (by decide) (by decide) rfl (by decide)
  · exact h5 [] stR1 stR1 rfl "r1" (by decide)


/-! ## Gap finding (`find_gaps`, `scale_min_gap_size`) -/

/-- Worker of the maximal-run decomposition: `b` is the value of the run
currently being accumulated, `s` its start, `n` its length so far, and
the list is the remainder of the array. -/
def runs1 : Bool → ℕ → ℕ → List Bool → List RunGroup
  | b, s, n, [] => [⟨s, n, b⟩]
  | b, s, n, c :: t =>
    if c = b then runs1 b s (n + 1) t
    else ⟨s, n, b⟩ :: runs1 c (s + n) 1 t

/-- The maximal runs of consecutive equal values of a boolean array. -/
def runsOf : List Bool → List RunGroup
  | [] => []
  | b :: t => runs1 b 0 1 t

/-- Modelled from the spec: `utils.find_consecutive_groups` is not under
`src/`; per the spec it extracts the maximal runs of consecutive
positions (of equal covered value), keeping those of length at least
`min_size`. -/
def find_consecutive_groups (l : List Bool) (min_size : ℕ) : List RunGroup :=
  (runsOf l).filter (fun g => decide (min_size ≤ g.len))

/-- Modelled from the spec: `utils.lander_waterman` is not under `src/`;
`scale_min_gap_size(min_gap, mean_coverage)` divides `min_gap` by the
Lander–Waterman factor at the mean coverage when that factor is positive
(`int(...)` truncation is the floor, both operands being nonnegative) and
leaves it unscaled otherwise.  The factor's value is the parameter `lw`. -/
def scale_min_gap_size (lw : ℚ) (min_gap : ℕ) : ℕ :=
  if 0 < lw then ((min_gap : ℚ) / lw).floor.toNat else min_gap

/-- `(self.lowmq_count > 1) & (self.lowmq_count > depth)` at one
position, where `depth` is the good-read count. -/
def ScaffoldCallData.lowmq_dominant (s : ScaffoldCallData) (i : ℕ) : Bool :=
  decide (1 < s.lowmq_count i) && decide (s.depth i < s.lowmq_count i)

/-- `covered_array = (self.weak > 0) | self.lowmq` at one position. -/
def ScaffoldCallData.covered (s : ScaffoldCallData) (i : ℕ) : Bool :=
  decide (0 < s.weak i) || s.lowmq_dominant i

/-- `ScaffoldCallData.find_gaps`: scale the minimum gap size by the
Lander–Waterman factor at this scaffold's mean coverage (`landerW`
stands for `utils.lander_waterman`), mark low-mapping-quality-dominant
positions, and keep the consecutive groups in which no position is
covered (`if not numpy.any(group.data)`: all-`false` runs). -/
def ScaffoldCallData.find_gaps (landerW : ℚ → ℚ) (min_size : ℕ)
    (s : ScaffoldCallData) : ScaffoldCallData :=
  let minScaled := scale_min_gap_size (landerW s.mean_coverage) min_size
  { s with
    lowmq := fun i => s.lowmq_dominant i
    gaps := (find_consecutive_groups ((List.range s.length).map s.covered)
      minScaled).filter (fun g => !g.val) }

/-- Full characterization of the run decomposition `runs1 b s n t` of the
virtual array `replicate n b ++ t` based at offset `s`: it is nonempty
with head start `s` and head value `b`; adjacent groups abut and
alternate; groups are nonempty, within bounds; every position of a group
carries the group's value; each group is maximal on the right and on the
left; and every position lies in some group. -/
lemma runs1_spec (t : List Bool) : ∀ (b : Bool) (s n : ℕ), 1 ≤ n →
    (∃ g0 gs', runs1 b s n t = g0 :: gs' ∧ g0.start = s ∧ g0.val = b) ∧
    List.Chain' (fun g1 g2 => g1.stop = g2.start ∧ g2.val = !g1.val)
      (runs1 b s n t) ∧
    (∀ g ∈ runs1 b s n t, 1 ≤ g.len ∧ s ≤ g.start ∧
      g.stop ≤ s + n + t.length) ∧
    (∀ g ∈ runs1 b s n t, ∀ i, g.start ≤ i → i < g.stop →
      (List.replicate n b ++ t)[i - s]? = some g.val) ∧
    (∀ g ∈ runs1 b s n t, g.stop = s + n + t.length ∨
      (List.replicate n b ++ t)[g.stop - s]? = some (!g.val)) ∧
    (∀ i, s ≤ i → i < s + n + t.length →
      ∃ g ∈ runs1 b s n t, g.start ≤ i ∧ i < g.stop) ∧
    (∀ g ∈ runs1 b s n t, (g.start = s ∧ g.val = b) ∨
      (List.replicate n b ++ t)[g.start - 1 - s]? = some (!g.val)) := by
  induction t with
  | nil =>
    intro b s n hn
    refine ⟨⟨⟨s, n, b⟩, [], rfl, rfl, rfl⟩, ?_, ?_, ?_, ?_, ?_, ?_⟩
    · simp [runs1]
    · intro g hg
      simp only [runs1, List.mem_singleton] at hg
      subst hg
      simp [RunGroup.stop]
      omega
    · intro g hg i h1 h2
      simp only [runs1, List.mem_singleton] at hg
      subst hg
      simp only [RunGroup.stop] at h2
      rw [List.append_nil]
      exact List.getElem?_replicate_of_lt (by omega)
    · intro g hg
      simp only [runs1, List.mem_singleton] at hg
      subst hg
      left
      simp [RunGroup.stop]
    · intro i h1 h2
      refine ⟨⟨s, n, b⟩, by simp [runs1], by simpa using h1, ?_⟩
      simp only [RunGroup.stop]
      simpa using h2
    · intro g hg
      simp only [runs1, List.mem_singleton] at hg
      subst hg
      exact Or.inl ⟨rfl, rfl⟩
  | cons c t' ih =>
    intro b s n hn
    by_cases hc : c = b
    · subst hc
      rw [show runs1 c s n (c :: t') = runs1 c s (n + 1) t' from by
        rw [runs1]; simp]
      have hlist : List.replicate n c ++ c :: t' =
          List.replicate (n + 1) c ++ t' := by
        rw [List.replicate_succ', List.append_assoc]
        rfl
      have harith : s + n + (c :: t').length = s + (n + 1) + t'.length := by
        simp [List.length_cons]
        omega
      rw [hlist, harith]
      exact ih c s (n + 1) (by omega)
    · rw [show runs1 b s n (c :: t') = ⟨s, n, b⟩ :: runs1 c (s + n) 1 t' from by
        rw [runs1]; simp [hc]]
      have hcb : c = !b := by
        cases c <;> cases b <;> simp_all
      have hv' : List.replicate 1 c ++ t' = c :: t' := by
        simp [List.replicate]
      obtain ⟨⟨g1, gs1, hdecomp, hg1start, hg1val⟩, hchain, hbounds, hpos,
        hright, hcover, hleft⟩ := ih c (s + n) 1 (le_refl 1)
      rw [hv'] at hpos hright hleft
      have hlenrep : (List.replicate n b).length = n := List.length_replicate n b
      have hidx1 : ∀ j, j < n → (List.replicate n b ++ c :: t')[j]? = some b := by
        intro j hj
        rw [List.getElem?_append_left (by rw [hlenrep]; exact hj)]
        exact List.getElem?_replicate_of_lt hj
      have hidx2 : ∀ j, n ≤ j →
          (List.replicate n b ++ c :: t')[j]? = (c :: t')[j - n]? := by
        intro j hj
        rw [List.getElem?_append_right (by rw [hlenrep]; exact hj), hlenrep]
      refine ⟨⟨⟨s, n, b⟩, runs1 c (s + n) 1 t', rfl, rfl, rfl⟩, ?_, ?_, ?_, ?_, ?_, ?_⟩
      · rw [List.chain'_cons']
        refine ⟨?_, hchain⟩
        intro g2 hg2
        rw [hdecomp] at hg2
        simp only [List.head?_cons, Option.mem_def, Option.some.injEq] at hg2
        subst hg2
        exact ⟨by simp [RunGroup.stop, hg1start], by rw [hg1val, hcb]⟩
      · intro g hg
        rcases List.mem_cons.mp hg with hg | hg
        · subst hg
          have hL : (c :: t').length = t'.length + 1 := rfl
          refine ⟨hn, le_refl s, ?_⟩
          simp only [RunGroup.stop]
          omega
        · obtain ⟨h1, h2, h3⟩ := hbounds g hg
          have hL : (c :: t').length = t'.length + 1 := rfl
          exact ⟨h1, by omega, by omega⟩
      · intro g hg i hi1 hi2
        rcases List.mem_cons.mp hg with hg | hg
        · subst hg
          simp only [RunGroup.stop] at hi2
          exact hidx1 (i - s) (by omega)
        · obtain ⟨h1, h2, h3⟩ := hbounds g hg
          rw [hidx2 (i - s) (by omega),
            show i - s - n = i - (s + n) by omega]
          exact hpos g hg i hi1 hi2
      · intro g hg
        rcases List.mem_cons.mp hg with hg | hg
        · subst hg
          right
          rw [show RunGroup.stop ⟨s, n, b⟩ - s = n from by
            simp [RunGroup.stop]]
          rw [hidx2 n (le_refl n)]
          simp [hcb]
        · obtain ⟨h1, h2, h3⟩ := hbounds g hg
          have hstopeq : g.stop = g.start + g.len := rfl
          have hL : (c :: t').length = t'.length + 1 := rfl
          rcases hright g hg with hstop | hget
          · left
            omega
          · right
            rw [hidx2 (g.stop - s) (by omega),
              show g.stop - s - n = g.stop - (s + n) by omega]
            exact hget
      · intro i hi1 hi2
        have hL : (c :: t').length = t'.length + 1 := rfl
        by_cases hin : i < s + n
        · exact ⟨⟨s, n, b⟩, List.mem_cons_self _ _, hi1,
            by simp only [RunGroup.stop]; omega⟩
        · obtain ⟨g, hg, hga, hgb⟩ := hcover i (by omega) (by omega)
          exact ⟨g, List.mem_cons_of_mem _ hg, hga, hgb⟩
      · intro g hg
        rcases List.mem_cons.mp hg with hg | hg
        · subst hg
          exact Or.inl ⟨rfl, rfl⟩
        · obtain ⟨h1, h2, h3⟩ := hbounds g hg
          by_cases hgs : g.start = s + n
          · right
            have hval : g.val = c := by
              have hstopeq : g.stop = g.start + g.len := rfl
              have := hpos g hg g.start (le_refl _) (by omega)
              rw [hgs] at this
              simp at this
              exact this.symm
            rw [show g.start - 1 - s = n - 1 from by omega]
            rw [hidx1 (n - 1) (by omega), hval, hcb]
            simp
          · rcases hleft g hg with ⟨hA, _⟩ | hB
            · exact absurd hA hgs
            · right
              rw [hidx2 (g.start - 1 - s) (by omega),
                show g.start - 1 - s - n = g.start - 1 - (s + n) by omega]
              exact hB

/-- In an abutting alternating chain of nonempty groups, every group
starts at or after any lower bound on the head's start. -/
lemma chain_runs_le (gs : List RunGroup) :
    ∀ (x : ℕ),
    List.Chain' (fun g1 g2 => g1.stop = g2.start ∧ g2.val = !g1.val) gs →
    (∀ g ∈ gs, 1 ≤ g.len) →
    (∀ b ∈ gs.head?, x ≤ b.start) →
    ∀ g ∈ gs, x ≤ g.start := by
  induction gs with
  | nil =>
    intro x _ _ _ g hg
    cases hg
  | cons g0 gs ih =>
    intro x hchain hlen hhead g hg
    rw [List.chain'_cons'] at hchain
    obtain ⟨hrel, htail⟩ := hchain
    have hx0 : x ≤ g0.start := hhead g0 (by simp)
    rcases List.mem_cons.mp hg with rfl | hg'
    · exact hx0
    · refine ih x htail (fun g' h => hlen g' (List.mem_cons_of_mem _ h)) ?_ g hg'
      intro b hb
      obtain ⟨he, _⟩ := hrel b hb
      have hstopeq : g0.stop = g0.start + g0.len := rfl
      have hlen0 := hlen g0 (by simp)
      omega

/-- An abutting alternating chain of nonempty groups is pairwise
disjoint and sorted by start. -/
lemma chain_runs_pairwise (gs : List RunGroup) :
    List.Chain' (fun g1 g2 => g1.stop = g2.start ∧ g2.val = !g1.val) gs →
    (∀ g ∈ gs, 1 ≤ g.len) →
    List.Pairwise (fun g1 g2 => g1.stop ≤ g2.start) gs := by
  induction gs with
  | nil =>
    intro _ _
    exact List.Pairwise.nil
  | cons g0 gs ih =>
    intro hchain hlen
    have hchain' := hchain
    rw [List.chain'_cons'] at hchain'
    obtain ⟨hrel, htail⟩ := hchain'
    refine List.Pairwise.cons ?_ (ih htail
      (fun g' h => hlen g' (List.mem_cons_of_mem _ h)))
    intro g hg
    refine chain_runs_le gs g0.stop htail
      (fun g' h => hlen g' (List.mem_cons_of_mem _ h)) ?_ g hg
    intro b hb
    exact le_of_eq (hrel b hb).1

/-- The run decomposition of an array: groups are nonempty and within
bounds, carry their value at each of their positions, are maximal on both
sides, cover every position, and are pairwise disjoint and sorted. -/
lemma runsOf_props (l : List Bool) :
    (∀ g ∈ runsOf l, 1 ≤ g.len ∧ g.stop ≤ l.length) ∧
    (∀ g ∈ runsOf l, ∀ i, g.start ≤ i → i < g.stop → l[i]? = some g.val) ∧
    (∀ g ∈ runsOf l, g.stop = l.length ∨ l[g.stop]? = some (!g.val)) ∧
    (∀ i, i < l.length → ∃ g ∈ runsOf l, g.start ≤ i ∧ i < g.stop) ∧
    (∀ g ∈ runsOf l, g.start = 0 ∨ l[g.start - 1]? = some (!g.val)) ∧
    List.Pairwise (fun g1 g2 => g1.stop ≤ g2.start) (runsOf l) := by
  cases l with
  | nil =>
    refine ⟨?_, ?_, ?_, ?_, ?_, ?_⟩ <;> simp [runsOf]
  | cons b t =>
    have hl : List.replicate 1 b ++ t = b :: t := by
      simp [List.replicate]
    obtain ⟨_, hchain, hbounds, hpos, hright, hcover, hleft⟩ :=
      runs1_spec t b 0 1 (le_refl 1)
    rw [hl] at hpos hright hleft
    have hrof : runsOf (b :: t) = runs1 b 0 1 t := rfl
    have hLen : (b :: t).length = t.length + 1 := rfl
    refine ⟨?_, ?_, ?_, ?_, ?_, ?_⟩
    · intro g hg
      rw [hrof] at hg
      obtain ⟨h1, _, h3⟩ := hbounds g hg
      exact ⟨h1, by omega⟩
    · intro g hg i hi1 hi2
      rw [hrof] at hg
      have := hpos g hg i hi1 hi2
      rwa [Nat.sub_zero] at this
    · intro g hg
      rw [hrof] at hg
      rcases hright g hg with h | h
      · left
        omega
      · right
        rwa [Nat.sub_zero] at h
    · intro i hi
      obtain ⟨g, hg, h1, h2⟩ := hcover i (Nat.zero_le i) (by omega)
      exact ⟨g, hg, h1, h2⟩
    · intro g hg
      rw [hrof] at hg
      rcases hleft g hg with ⟨h, _⟩ | h
      · exact Or.inl h
      · right
        rwa [Nat.sub_zero] at h
    · rw [hrof]
      exact chain_runs_pairwise _ hchain (fun g hg => (hbounds g hg).1)

/-- C6: after `find_gaps`, the gap list consists exactly of the maximal
runs of consecutive uncovered positions (no weak call and no
low-mapping-quality dominance) of length at least the coverage-scaled
minimum: every listed gap is such a run (all-uncovered, within bounds,
maximal on both sides, long enough); every such maximal run is listed;
and the gaps are mutually disjoint and sorted by start. -/
theorem find_gaps_spec (landerW : ℚ → ℚ) (min_gap : ℕ) (s : ScaffoldCallData) :
    (∀ g ∈ (s.find_gaps landerW min_gap).gaps,
      g.val = false ∧
      scale_min_gap_size (landerW s.mean_coverage) min_gap ≤ g.len ∧
      1 ≤ g.len ∧ g.stop ≤ s.length ∧
      (∀ i, g.start ≤ i → i < g.stop → s.covered i = false) ∧
      (g.start = 0 ∨ s.covered (g.start - 1) = true) ∧
      (g.stop = s.length ∨ s.covered g.stop = true)) ∧
    (∀ a n, 1 ≤ n → scale_min_gap_size (landerW s.mean_coverage) min_gap ≤ n →
      a + n ≤ s.length →
      (∀ i, a ≤ i → i < a + n → s.covered i = false) →
      (a = 0 ∨ s.covered (a - 1) = true) →
      (a + n = s.length ∨ s.covered (a + n) = true) →
      (⟨a, n, false⟩ : RunGroup) ∈ (s.find_gaps landerW min_gap).gaps) ∧
    List.Pairwise (fun g1 g2 => g1.stop ≤ g2.start)
      (s.find_gaps landerW min_gap).gaps := by
  have hgaps : (s.find_gaps landerW min_gap).gaps =
      (find_consecutive_groups ((List.range s.length).map s.covered)
        (scale_min_gap_size (landerW s.mean_coverage) min_gap)).filter
        (fun g => !g.val) := rfl
  set minS := scale_min_gap_size (landerW s.mean_coverage) min_gap with hminS
  set covlist := (List.range s.length).map s.covered with hcovl
  have hclen : covlist.length = s.length := by
    rw [hcovl, List.length_map, List.length_range]
  have hcget : ∀ i, i < s.length → covlist[i]? = some (s.covered i) := by
    intro i hi
    rw [hcovl, List.getElem?_map, List.getElem?_range hi]
    rfl
  obtain ⟨hbounds, hpos, hright, hcover, hleft, hpair⟩ := runsOf_props covlist
  have hmem : ∀ g : RunGroup, g ∈ (s.find_gaps landerW min_gap).gaps ↔
      (g ∈ runsOf covlist ∧ minS ≤ g.len ∧ g.val = false) := by
    intro g
    rw [hgaps, List.mem_filter, find_consecutive_groups, List.mem_filter]
    simp [and_assoc]
  refine ⟨?_, ?_, ?_⟩
  · intro g hg
    obtain ⟨hgr, hglen, hgval⟩ := (hmem g).mp hg
    obtain ⟨h1, h2⟩ := hbounds g hgr
    refine ⟨hgval, hglen, h1, by omega, ?_, ?_, ?_⟩
    · intro i hi1 hi2
      have hilt : i < s.length := by
        have hstopeq : g.stop = g.start + g.len := rfl
        omega
      have hp := hpos g hgr i hi1 hi2
      rw [hcget i hilt, hgval] at hp
      exact Option.some.inj hp
    · rcases hleft g hgr with h | h
      · exact Or.inl h
      · right
        obtain ⟨hlt, _⟩ := List.getElem?_eq_some_iff.mp h
        rw [hcget (g.start - 1) (by omega), hgval] at h
        exact Option.some.inj h
    · rcases hright g hgr with h | h
      · left
        omega
      · right
        obtain ⟨hlt, _⟩ := List.getElem?_eq_some_iff.mp h
        rw [hcget g.stop (by omega), hgval] at h
        exact Option.some.inj h
  · intro a n hn1 hnmin hbound hfalse hleftmax hrightmax
    have ha : a < s.length := by omega
    obtain ⟨g, hgr, hga, hgb⟩ := hcover a (by omega)
    have hstopeq : g.stop = g.start + g.len := rfl
    obtain ⟨hl1, hl2⟩ := hbounds g hgr
    have hval : g.val = false := by
      have hp := hpos g hgr a hga hgb
      rw [hcget a ha] at hp
      rw [← Option.some.inj hp]
      exact hfalse a (le_refl a) (by omega)
    have hstart : g.start = a := by
      by_contra hne
      have hlt : g.start < a := lt_of_le_of_ne hga hne
      have hcm1 : s.covered (a - 1) = false := by
        have hp := hpos g hgr (a - 1) (by omega) (by omega)
        rw [hcget (a - 1) (by omega), hval] at hp
        exact Option.some.inj hp
      rcases hleftmax with h0 | hcov1
      · omega
      · rw [hcm1] at hcov1
        exact Bool.false_ne_true hcov1
    have hstople : g.stop ≤ a + n := by
      by_contra hgt
      push_neg at hgt
      have hcan : s.covered (a + n) = false := by
        have hp := hpos g hgr (a + n) (by omega) (by omega)
        rw [hcget (a + n) (by omega), hval] at hp
        exact Option.some.inj hp
      rcases hrightmax with h0 | hcov1
      · omega
      · rw [hcan] at hcov1
        exact Bool.false_ne_true hcov1
    have hstopge : a + n ≤ g.stop := by
      by_contra hlt2
      push_neg at hlt2
      have hcst : s.covered g.stop = false := hfalse g.stop (by omega) (by omega)
      rcases hright g hgr with h0 | hsome
      · omega
      · rw [hcget g.stop (by omega), hval] at hsome
        have := Option.some.inj hsome
        rw [hcst] at this
        exact Bool.false_ne_true this
    have hgfull : g = ⟨a, n, false⟩ := by
      obtain ⟨gs, gl, gv⟩ := g
      simp only [RunGroup.stop, RunGroup.mk.injEq] at hstopeq hstople hstopge hstart hval ⊢
      refine ⟨hstart, by omega, hval⟩
    exact (hmem ⟨a, n, false⟩).mpr ⟨hgfull ▸ hgr, hnmin, rfl⟩
  · rw [hgaps, find_consecutive_groups]
    exact (hpair.filter _).filter _

/-- A scaffold of length 5 whose positions 1–3 are uncovered: weak
evidence only at the two ends, no low-mapping-quality reads. -/
def sGapWitness : ScaffoldCallData :=
  { ScaffoldCallData.init "g" 5 with
    weak := fun i => if i = 0 ∨ i = 4 then 1 else 0 }

/-- Witness for C6: with an unscaled minimum gap of 3 (the
Lander–Waterman factor is 0, so no scaling), the uncovered run from
position 1 of length 3 is reported as a gap. -/
theorem find_gaps_spec_witness :
    (⟨1, 3, false⟩ : RunGroup) ∈
      (sGapWitness.find_gaps (fun _ => 0) 3).gaps := by
  refine (find_gaps_spec (fun _ => 0) 3 sGapWitness).2.1 1 3 (by decide)
    (by decide) (by decide) ?_ (by right; decide) (by right; decide)
  intro i h1 h2
  interval_cases i <;> decide

end StrainGE
